import Mathlib

/-!
Verification of the circuit-layout core of pyquest/drawer.py.

The layout engine assigns each gate of a circuit a column index on a
qubit-by-depth grid.  We embed the four functions that make up the core
(`has_explicit_targets`, `get_operated_qubits`, `get_num_qubits`,
`get_gate_column`, `get_circuit_columns`) as Lean functions.  Python
exceptions (AttributeError from a missing `targets`/`controls` attribute,
ValueError from `max`/`min` applied to an empty sequence) are modelled by
an `Except PyErr` result.  The per-row dictionaries
`columns_of_last_target` and `columns_occluded_by_connectors` are
modelled as total functions from row index to value; the algorithm only
ever reads rows inside `[0, num_qubits)`, where the dictionaries are
initialised, so the totalisation is unobservable.
-/

/-- Python exceptions raised by the layout core: `ValueError` (from
`max()`/`min()` of an empty sequence) and `AttributeError` (from reading
a `targets`/`controls` attribute a gate object does not carry). -/
inductive PyErr where
  | valueError
  | attributeError
deriving DecidableEq

/-- A gate descriptor, opaque to the core beyond its two capabilities:
`targets = some ts` models a gate whose class overrides the `targets`
attribute (an explicitly-targeted gate), `targets = none` a gate where
reading `.targets` raises (an implicit-global gate); likewise for
`controls`. -/
structure Gate where
  targets : Option (List Nat)
  controls : Option (List Nat)
deriving DecidableEq

/-- Python `min` of a list of naturals.  The `[]` case returns `0`; the
source raises ValueError there, and the layout core never reaches that
case (see `operated_ne_nil`). -/
def listMinN : List Nat → Nat
  | [] => 0
  | x :: xs => xs.foldl Nat.min x

/-- Python `max` of a list of naturals (default `0` on `[]`, unreachable
in the composed algorithm). -/
def listMaxN : List Nat → Nat
  | [] => 0
  | x :: xs => xs.foldl Nat.max x

/-- Python `max` of a list of integers (default `0` on `[]`, unreachable
in the composed algorithm). -/
def pyIntMax : List Int → Int
  | [] => 0
  | x :: xs => xs.foldl max x

/-- drawer.py `has_explicit_targets`: duck-check whether `targets` was
overwritten by the operator subclass. -/
def has_explicit_targets (g : Gate) : Bool :=
  g.targets.isSome

/-- drawer.py `has_controls`: duck-check whether `controls` was
overwritten by the operator subclass. -/
def has_controls (g : Gate) : Bool :=
  g.controls.isSome

/-- drawer.py `get_operated_qubits`: an explicitly-targeted gate operates
on `gate.controls + gate.targets` (note: `.controls` is read
unconditionally, so it raises AttributeError when absent); an un-targeted
gate is assumed to operate on all qubits `range(0, num_qubits)`. -/
def get_operated_qubits (g : Gate) (num_qubits : Nat) : Except PyErr (List Nat) :=
  match g.targets with
  | some ts =>
    match g.controls with
    | some cs => .ok (cs ++ ts)
    | none => .error .attributeError
  | none => .ok (List.range num_qubits)

/-- The inner `max([*g.targets, *g.controls])` of drawer.py
`get_num_qubits`, evaluated for one explicitly-targeted gate: reads both
attributes (AttributeError when `controls` is missing) and raises
ValueError when the combined list is empty. -/
def gateMaxQubit (g : Gate) : Except PyErr Nat :=
  match g.targets, g.controls with
  | some ts, some cs =>
    match ts ++ cs with
    | [] => .error .valueError
    | x :: xs => .ok (xs.foldl Nat.max x)
  | some _, none => .error .attributeError
  | none, _ => .error .attributeError

/-- The generator `(max([*g.targets, *g.controls]) for g in gates if
has_explicit_targets(g))` of drawer.py `get_num_qubits`: the per-gate
maxima of the explicitly-targeted gates, in input order, with the first
exception propagated. -/
def maxQubitsAll : List Gate → Except PyErr (List Nat)
  | [] => .ok []
  | g :: gs =>
    if has_explicit_targets g then
      match gateMaxQubit g with
      | .error e => .error e
      | .ok v =>
        match maxQubitsAll gs with
        | .error e => .error e
        | .ok vs => .ok (v :: vs)
    else maxQubitsAll gs

/-- drawer.py `get_num_qubits`: one plus the biggest indexed
target/control qubit among explicitly-targeted gates.  The outer `max`
raises ValueError when no gate has explicit targets. -/
def get_num_qubits (gates : List Gate) : Except PyErr Nat :=
  match maxQubitsAll gates with
  | .error e => .error e
  | .ok [] => .error .valueError
  | .ok (v :: vs) => .ok (1 + vs.foldl Nat.max v)

/-- drawer.py's `gate_range`: `list(range(min(gate_qubits),
max(gate_qubits) + 1))`, the inclusive span of rows crossed by the
gate's vertical connector. -/
def gateSpan (gate_qubits : List Nat) : List Nat :=
  List.range' (listMinN gate_qubits) (listMaxN gate_qubits + 1 - listMinN gate_qubits)

/-- One step of the `while` loop search of drawer.py `get_gate_column`,
with explicit fuel so that the definition is structural (and hence
computable by the kernel).  `next_free` below supplies provably
sufficient fuel. -/
def next_free_fuel : Nat → List Int → Int → Int
  | 0, _, c => c
  | fuel + 1, occ, c => if c ∈ occ then next_free_fuel fuel occ (c + 1) else c

/-- The `while column in ...: column += 1` loop of drawer.py
`get_gate_column`: the first integer `≥ c` not occurring in `occ`.
Fuel `occ.length + 1` always suffices (`next_free_isFirstFree`). -/
def next_free (occ : List Int) (c : Int) : Int :=
  next_free_fuel (occ.length + 1) occ c

/-- drawer.py `get_gate_column`: the initial choice is the leftmost
un-targeted column `1 + max(columns_of_last_target[q] for q in
gate_range)`, then the column is incremented while it is occluded by a
control line of any row in the span. -/
def get_gate_column (gate_qubits : List Nat) (columns_of_last_target : Nat → Int)
    (columns_occluded_by_connectors : Nat → List Int) : Int :=
  next_free (((gateSpan gate_qubits).map columns_occluded_by_connectors).flatten)
    (1 + pyIntMax ((gateSpan gate_qubits).map columns_of_last_target))

/-- The grid-occupancy state of one pass of drawer.py
`get_circuit_columns`: `last` is `columns_of_last_target`, `occ` is
`columns_occluded_by_connectors`. -/
structure LayoutState where
  last : Nat → Int
  occ : Nat → List Int

/-- The initial occupancy state: `columns_of_last_target[i] = -1` and
`columns_occluded_by_connectors[i] = []` for every row `i`. -/
def initState : LayoutState :=
  ⟨fun _ => -1, fun _ => []⟩

/-- The body of the `for gate in gates` loop of drawer.py
`get_circuit_columns` for one gate with operated qubits `gate_qubits`:
choose the column, record terminal occupancy on every operated qubit,
append the column to the occlusion set of every row of the span, and
prune occlusion entries at or left of each row's last target. -/
def place_gate (st : LayoutState) (gate_qubits : List Nat) : Int × LayoutState :=
  let column := get_gate_column gate_qubits st.last st.occ
  let last' : Nat → Int := fun q => if q ∈ gate_qubits then column else st.last q
  let occ' : Nat → List Int := fun q =>
    if q ∈ gateSpan gate_qubits then
      (st.occ q ++ [column]).filter fun x => decide (last' q < x)
    else st.occ q
  (column, ⟨last', occ'⟩)

/-- The gate loop of drawer.py `get_circuit_columns`, threading the
occupancy state and collecting one column per gate. -/
def columnsLoop (num_qubits : Nat) : List Gate → LayoutState → Except PyErr (List Int)
  | [], _ => .ok []
  | g :: gs, st =>
    match get_operated_qubits g num_qubits with
    | .error e => .error e
    | .ok gq =>
      match columnsLoop num_qubits gs (place_gate st gq).2 with
      | .error e => .error e
      | .ok cols => .ok ((place_gate st gq).1 :: cols)

/-- drawer.py `get_circuit_columns`: compute `num_qubits`, initialise the
occupancy state, and run the gate loop. -/
def get_circuit_columns (gates : List Gate) : Except PyErr (List Int) :=
  match get_num_qubits gates with
  | .error e => .error e
  | .ok n => columnsLoop n gates initState

/-- A variant of the per-gate step that omits the pruning of occlusion
entries (the "unnecessary memory cleanup" loop of drawer.py lines
324-328), letting each row's occlusion list grow unboundedly. -/
def place_gate_noprune (st : LayoutState) (gate_qubits : List Nat) : Int × LayoutState :=
  let column := get_gate_column gate_qubits st.last st.occ
  let last' : Nat → Int := fun q => if q ∈ gate_qubits then column else st.last q
  let occ' : Nat → List Int := fun q =>
    if q ∈ gateSpan gate_qubits then st.occ q ++ [column] else st.occ q
  (column, ⟨last', occ'⟩)

/-- The gate loop built on the pruning-free step. -/
def columnsLoopNoprune (num_qubits : Nat) : List Gate → LayoutState → Except PyErr (List Int)
  | [], _ => .ok []
  | g :: gs, st =>
    match get_operated_qubits g num_qubits with
    | .error e => .error e
    | .ok gq =>
      match columnsLoopNoprune num_qubits gs (place_gate_noprune st gq).2 with
      | .error e => .error e
      | .ok cols => .ok ((place_gate_noprune st gq).1 :: cols)

/-- The column assigner with the pruning step omitted. -/
def get_circuit_columns_noprune (gates : List Gate) : Except PyErr (List Int) :=
  match get_num_qubits gates with
  | .error e => .error e
  | .ok n => columnsLoopNoprune n gates initState

/-- The per-gate operated-qubit lists of a circuit, in input order. -/
def operatedAll (num_qubits : Nat) : List Gate → Except PyErr (List (List Nat))
  | [] => .ok []
  | g :: gs =>
    match get_operated_qubits g num_qubits with
    | .error e => .error e
    | .ok gq =>
      match operatedAll num_qubits gs with
      | .error e => .error e
      | .ok gqs => .ok (gq :: gqs)

/-- The pure placement pass over precomputed operated-qubit lists. -/
def placeAll (st : LayoutState) : List (List Nat) → List Int
  | [] => []
  | gq :: rest => (place_gate st gq).1 :: placeAll (place_gate st gq).2 rest

/-- Membership of a row in the inclusive span `[min rows, max rows]` of a
gate's operated rows. -/
def inSpan (gate_qubits : List Nat) (q : Nat) : Prop :=
  listMinN gate_qubits ≤ q ∧ q ≤ listMaxN gate_qubits

/-- A column `c` is feasible for a gate against an occupancy state when
it is strictly right of every span row's last terminal occupancy and is
not occluded at any span row. -/
def feasibleCol (st : LayoutState) (gate_qubits : List Nat) (c : Int) : Prop :=
  ∀ q : Nat, inSpan gate_qubits q → st.last q < c ∧ c ∉ st.occ q

/-- A row `q` permanently excludes column `col` once `col` is at or left
of the row's last terminal occupancy, or `col` is in the row's occlusion
set. -/
def Blocked (st : LayoutState) (q : Nat) (col : Int) : Prop :=
  col ≤ st.last q ∨ col ∈ st.occ q

/-- The documented state invariant: every occlusion entry of a row lies
strictly right of that row's last terminal occupancy. -/
def StateInv (st : LayoutState) : Prop :=
  ∀ q : Nat, ∀ x ∈ st.occ q, st.last q < x

/-- All rows' last-target columns are at least the sentinel `-1`. -/
def LastLB (st : LayoutState) : Prop :=
  ∀ q : Nat, -1 ≤ st.last q

/-! Basic facts about the Python-style `min`/`max` helpers. -/

lemma foldl_min_le_init (xs : List Nat) (a : Nat) : xs.foldl Nat.min a ≤ a := by
  induction xs generalizing a with
  | nil => exact le_refl a
  | cons x xs ih => exact le_trans (ih (Nat.min a x)) (Nat.min_le_left a x)

lemma foldl_min_le_mem (xs : List Nat) (a q : Nat) (h : q ∈ xs) : xs.foldl Nat.min a ≤ q := by
  induction xs generalizing a with
  | nil => cases h
  | cons x xs ih =>
    rcases List.mem_cons.mp h with rfl | hq
    · exact le_trans (foldl_min_le_init xs _) (Nat.min_le_right a q)
    · exact ih _ hq

lemma listMinN_le (gq : List Nat) (q : Nat) (h : q ∈ gq) : listMinN gq ≤ q := by
  cases gq with
  | nil => cases h
  | cons x xs =>
    rcases List.mem_cons.mp h with rfl | hq
    · exact foldl_min_le_init xs q
    · exact foldl_min_le_mem xs x q hq

lemma foldl_natMax_init_le (xs : List Nat) (a : Nat) : a ≤ xs.foldl Nat.max a := by
  induction xs generalizing a with
  | nil => exact le_refl a
  | cons x xs ih => exact le_trans (Nat.le_max_left a x) (ih (Nat.max a x))

lemma foldl_natMax_mem_le (xs : List Nat) (a q : Nat) (h : q ∈ xs) : q ≤ xs.foldl Nat.max a := by
  induction xs generalizing a with
  | nil => cases h
  | cons x xs ih =>
    rcases List.mem_cons.mp h with rfl | hq
    · exact le_trans (Nat.le_max_right a q) (foldl_natMax_init_le xs _)
    · exact ih _ hq

lemma foldl_natMax_choice (xs : List Nat) (a : Nat) :
    xs.foldl Nat.max a = a ∨ xs.foldl Nat.max a ∈ xs := by
  induction xs generalizing a with
  | nil => exact Or.inl rfl
  | cons x xs ih =>
    have hchoice : Nat.max a x = a ∨ Nat.max a x = x := max_choice a x
    rcases ih (Nat.max a x) with h | h
    · rcases hchoice with hm | hm
      · exact Or.inl (by rw [List.foldl_cons, h, hm])
      · exact Or.inr (by rw [List.foldl_cons, h, hm]; exact List.mem_cons_self x xs)
    · exact Or.inr (List.mem_cons_of_mem x h)

lemma le_listMaxN (gq : List Nat) (q : Nat) (h : q ∈ gq) : q ≤ listMaxN gq := by
  cases gq with
  | nil => cases h
  | cons x xs =>
    rcases List.mem_cons.mp h with rfl | hq
    · exact foldl_natMax_init_le xs q
    · exact foldl_natMax_mem_le xs x q hq

lemma le_foldl_natMax_of_mem_cons (v : Nat) (vs : List Nat) (x : Nat) (h : x ∈ v :: vs) :
    x ≤ vs.foldl Nat.max v := by
  rcases List.mem_cons.mp h with rfl | hx
  · exact foldl_natMax_init_le vs x
  · exact foldl_natMax_mem_le vs v x hx

lemma foldl_intMax_init_le (xs : List Int) (a : Int) : a ≤ xs.foldl max a := by
  induction xs generalizing a with
  | nil => exact le_refl a
  | cons x xs ih => exact le_trans (le_max_left a x) (ih (max a x))

lemma foldl_intMax_mem_le (xs : List Int) (a q : Int) (h : q ∈ xs) : q ≤ xs.foldl max a := by
  induction xs generalizing a with
  | nil => cases h
  | cons x xs ih =>
    rcases List.mem_cons.mp h with rfl | hq
    · exact le_trans (le_max_right a q) (foldl_intMax_init_le xs _)
    · exact ih _ hq

lemma le_pyIntMax (l : List Int) (q : Int) (h : q ∈ l) : q ≤ pyIntMax l := by
  cases l with
  | nil => cases h
  | cons x xs =>
    rcases List.mem_cons.mp h with rfl | hq
    · exact foldl_intMax_init_le xs q
    · exact foldl_intMax_mem_le xs x q hq

lemma pyIntMax_mem (l : List Int) (h : l ≠ []) : pyIntMax l ∈ l := by
  cases l with
  | nil => exact absurd rfl h
  | cons x xs =>
    have key : ∀ (ys : List Int) (a : Int), ys.foldl max a = a ∨ ys.foldl max a ∈ ys := by
      intro ys
      induction ys with
      | nil => intro a; exact Or.inl rfl
      | cons y ys ih =>
        intro a
        rcases ih (max a y) with h1 | h1
        · rcases max_choice a y with hm | hm
          · exact Or.inl (by rw [List.foldl_cons, h1, hm])
          · exact Or.inr (by rw [List.foldl_cons, h1, hm]; exact List.mem_cons_self y ys)
        · exact Or.inr (List.mem_cons_of_mem y h1)
    rcases key xs x with h1 | h1
    · rw [pyIntMax, h1]; exact List.mem_cons_self x xs
    · exact List.mem_cons_of_mem x h1

/-! Facts about the span `gateSpan`. -/

lemma listMinN_le_listMaxN (gq : List Nat) : listMinN gq ≤ listMaxN gq := by
  cases gq with
  | nil => exact le_refl 0
  | cons x xs =>
    exact le_trans (listMinN_le (x :: xs) x (List.mem_cons_self x xs))
      (le_listMaxN (x :: xs) x (List.mem_cons_self x xs))

lemma mem_gateSpan_iff (gq : List Nat) (q : Nat) :
    q ∈ gateSpan gq ↔ listMinN gq ≤ q ∧ q ≤ listMaxN gq := by
  unfold gateSpan
  rw [List.mem_range'_1]
  have := listMinN_le_listMaxN gq
  omega

lemma mem_gateSpan_of_mem (gq : List Nat) (q : Nat) (h : q ∈ gq) : q ∈ gateSpan gq := by
  rw [mem_gateSpan_iff]
  exact ⟨listMinN_le gq q h, le_listMaxN gq q h⟩

lemma gateSpan_ne_nil (gq : List Nat) : gateSpan gq ≠ [] := by
  unfold gateSpan
  rw [Ne, List.range'_eq_nil]
  have := listMinN_le_listMaxN gq
  omega

lemma listMinN_mem_gateSpan (gq : List Nat) : listMinN gq ∈ gateSpan gq := by
  rw [mem_gateSpan_iff]
  exact ⟨le_refl _, listMinN_le_listMaxN gq⟩

/-! Facts about the fuelled while-loop search `next_free`. -/

lemma nf_le (fuel : Nat) (occ : List Int) (c : Int) : c ≤ next_free_fuel fuel occ c := by
  induction fuel generalizing c with
  | zero => exact le_refl c
  | succ n ih =>
    rw [next_free_fuel]
    split
    · exact le_trans (by omega) (ih (c + 1))
    · exact le_refl c

lemma nf_min (fuel : Nat) (occ : List Int) (c x : Int) (h1 : c ≤ x)
    (h2 : x < next_free_fuel fuel occ c) : x ∈ occ := by
  induction fuel generalizing c with
  | zero => rw [next_free_fuel] at h2; omega
  | succ n ih =>
    rw [next_free_fuel] at h2
    by_cases hc : c ∈ occ
    · rw [if_pos hc] at h2
      rcases eq_or_lt_of_le h1 with rfl | hlt
      · exact hc
      · exact ih (c + 1) (by omega) h2
    · rw [if_neg hc] at h2; omega

lemma filter_ge_mono (occ : List Int) (c : Int) :
    (occ.filter fun x => decide (c + 1 ≤ x)).length ≤
      (occ.filter fun x => decide (c ≤ x)).length := by
  induction occ with
  | nil => exact le_refl 0
  | cons y ys ih =>
    simp only [List.filter_cons, decide_eq_true_eq]
    by_cases h1 : c + 1 ≤ y
    · have h2 : c ≤ y := by omega
      rw [if_pos h1, if_pos h2, List.length_cons, List.length_cons]
      omega
    · by_cases h2 : c ≤ y
      · rw [if_neg h1, if_pos h2, List.length_cons]
        omega
      · rw [if_neg h1, if_neg h2]
        exact ih

lemma filter_ge_strict (occ : List Int) (c : Int) (h : c ∈ occ) :
    (occ.filter fun x => decide (c + 1 ≤ x)).length <
      (occ.filter fun x => decide (c ≤ x)).length := by
  induction occ with
  | nil => cases h
  | cons y ys ih =>
    simp only [List.filter_cons, decide_eq_true_eq]
    rcases List.mem_cons.mp h with rfl | hmem
    · have h1 : ¬ (c + 1 ≤ c) := by omega
      rw [if_neg h1, if_pos (le_refl c), List.length_cons]
      have := filter_ge_mono ys c
      omega
    · by_cases h1 : c + 1 ≤ y
      · have h2 : c ≤ y := by omega
        rw [if_pos h1, if_pos h2, List.length_cons, List.length_cons]
        have := ih hmem
        omega
      · by_cases h2 : c ≤ y
        · rw [if_neg h1, if_pos h2, List.length_cons]
          have := ih hmem
          omega
        · rw [if_neg h1, if_neg h2]
          exact ih hmem

lemma nf_not_mem (fuel : Nat) (occ : List Int) (c : Int)
    (h : (occ.filter fun x => decide (c ≤ x)).length < fuel) :
    next_free_fuel fuel occ c ∉ occ := by
  induction fuel generalizing c with
  | zero => omega
  | succ n ih =>
    rw [next_free_fuel]
    by_cases hc : c ∈ occ
    · rw [if_pos hc]
      apply ih
      have := filter_ge_strict occ c hc
      omega
    · rw [if_neg hc]
      exact hc

/-- Characterisation of the value found by the while loop: first
non-member of `occ` at or after `start`. -/
def IsFirstFree (occ : List Int) (start v : Int) : Prop :=
  start ≤ v ∧ v ∉ occ ∧ ∀ x : Int, start ≤ x → x < v → x ∈ occ

lemma next_free_isFirstFree (occ : List Int) (c : Int) : IsFirstFree occ c (next_free occ c) := by
  refine ⟨nf_le _ _ _, ?_, fun x h1 h2 => nf_min _ _ _ _ h1 h2⟩
  exact nf_not_mem _ _ _ (Nat.lt_succ_of_le (List.length_filter_le _ _))

lemma isFirstFree_unique (occ : List Int) (c v1 v2 : Int)
    (h1 : IsFirstFree occ c v1) (h2 : IsFirstFree occ c v2) : v1 = v2 := by
  rcases lt_trichotomy v1 v2 with h | h | h
  · exact absurd (h2.2.2 v1 h1.1 h) h1.2.1
  · exact h
  · exact absurd (h1.2.2 v2 h2.1 h) h2.2.1

/-! Facts about a single column choice `get_gate_column`. -/

lemma start_le_get_gate_column (gq : List Nat) (last : Nat → Int) (occ : Nat → List Int) :
    1 + pyIntMax ((gateSpan gq).map last) ≤ get_gate_column gq last occ :=
  (next_free_isFirstFree _ _).1

lemma last_lt_column (gq : List Nat) (last : Nat → Int) (occ : Nat → List Int) (q : Nat)
    (hq : q ∈ gateSpan gq) : last q < get_gate_column gq last occ := by
  have h1 : last q ≤ pyIntMax ((gateSpan gq).map last) :=
    le_pyIntMax _ _ (List.mem_map_of_mem last hq)
  have h2 := start_le_get_gate_column gq last occ
  omega

lemma column_not_mem_occ (gq : List Nat) (last : Nat → Int) (occ : Nat → List Int) (q : Nat)
    (hq : q ∈ gateSpan gq) : get_gate_column gq last occ ∉ occ q := by
  intro hmem
  exact (next_free_isFirstFree _ _).2.1
    (List.mem_flatten.mpr ⟨occ q, List.mem_map_of_mem occ hq, hmem⟩)

lemma column_minimal (gq : List Nat) (last : Nat → Int) (occ : Nat → List Int) (c' : Int)
    (hlt : c' < get_gate_column gq last occ)
    (hfeas : ∀ q : Nat, inSpan gq q → last q < c' ∧ c' ∉ occ q) : False := by
  by_cases hs : 1 + pyIntMax ((gateSpan gq).map last) ≤ c'
  · have hmem := (next_free_isFirstFree (((gateSpan gq).map occ).flatten)
      (1 + pyIntMax ((gateSpan gq).map last))).2.2 c' hs hlt
    rcases List.mem_flatten.mp hmem with ⟨s, hs', hmem'⟩
    rcases List.mem_map.mp hs' with ⟨q, hq, rfl⟩
    exact (hfeas q ((mem_gateSpan_iff gq q).mp hq)).2 hmem'
  · have hnn : (gateSpan gq).map last ≠ [] := by
      rw [Ne, List.map_eq_nil_iff]
      exact gateSpan_ne_nil gq
    rcases List.mem_map.mp (pyIntMax_mem _ hnn) with ⟨q0, hq0, heq⟩
    have := (hfeas q0 ((mem_gateSpan_iff gq q0).mp hq0)).1
    omega

/-! Facts about a single placement step `place_gate`. -/

lemma place_gate_fst (st : LayoutState) (gq : List Nat) :
    (place_gate st gq).1 = get_gate_column gq st.last st.occ := rfl

lemma place_gate_last (st : LayoutState) (gq : List Nat) (q : Nat) :
    (place_gate st gq).2.last q =
      if q ∈ gq then get_gate_column gq st.last st.occ else st.last q := rfl

lemma place_gate_occ (st : LayoutState) (gq : List Nat) (q : Nat) :
    (place_gate st gq).2.occ q =
      if q ∈ gateSpan gq then
        (st.occ q ++ [get_gate_column gq st.last st.occ]).filter
          fun x => decide ((place_gate st gq).2.last q < x)
      else st.occ q := rfl

lemma place_gate_last_mono (st : LayoutState) (gq : List Nat) (q : Nat) :
    st.last q ≤ (place_gate st gq).2.last q := by
  rw [place_gate_last]
  by_cases h : q ∈ gq
  · rw [if_pos h]
    exact le_of_lt (last_lt_column gq st.last st.occ q (mem_gateSpan_of_mem gq q h))
  · rw [if_neg h]

lemma blocked_preserved (st : LayoutState) (gq : List Nat) (q : Nat) (col : Int)
    (h : Blocked st q col) : Blocked (place_gate st gq).2 q col := by
  rcases h with hl | ho
  · exact Or.inl (le_trans hl (place_gate_last_mono st gq q))
  · by_cases hsp : q ∈ gateSpan gq
    · by_cases hlt : (place_gate st gq).2.last q < col
      · refine Or.inr ?_
        rw [place_gate_occ, if_pos hsp]
        exact List.mem_filter.mpr ⟨List.mem_append_left _ ho, decide_eq_true hlt⟩
      · exact Or.inl (by omega)
    · refine Or.inr ?_
      rw [place_gate_occ, if_neg hsp]
      exact ho

lemma blocked_new (st : LayoutState) (gq : List Nat) (q : Nat) (hq : q ∈ gateSpan gq) :
    Blocked (place_gate st gq).2 q ((place_gate st gq).1) := by
  by_cases hg : q ∈ gq
  · refine Or.inl ?_
    rw [place_gate_fst, place_gate_last, if_pos hg]
  · refine Or.inr ?_
    rw [place_gate_fst, place_gate_occ, if_pos hq]
    refine List.mem_filter.mpr ⟨List.mem_append_right _ (List.mem_singleton_self _), ?_⟩
    refine decide_eq_true ?_
    rw [place_gate_last, if_neg hg]
    exact last_lt_column gq st.last st.occ q hq

/-! Facts about the full placement pass `placeAll`. -/

lemma placeAll_length (gqs : List (List Nat)) (st : LayoutState) :
    (placeAll st gqs).length = gqs.length := by
  induction gqs generalizing st with
  | nil => rfl
  | cons gq gqs ih => simp only [placeAll, List.length_cons, ih]

lemma blocked_run (gqs : List (List Nat)) (st : LayoutState) (q : Nat) (col : Int) (k : Nat)
    (hb : Blocked st q col) (hk : k < gqs.length) (hq : q ∈ gateSpan (gqs.getD k [])) :
    (placeAll st gqs).getD k 0 ≠ col := by
  induction gqs generalizing st k with
  | nil => simp at hk
  | cons gq gqs ih =>
    cases k with
    | zero =>
      simp only [List.getD_cons_zero] at hq
      simp only [placeAll, List.getD_cons_zero, place_gate_fst]
      rcases hb with hl | ho
      · have := last_lt_column gq st.last st.occ q hq
        omega
      · intro heq
        exact column_not_mem_occ gq st.last st.occ q hq (heq ▸ ho)
    | succ k =>
      simp only [List.getD_cons_succ] at hq
      simp only [placeAll, List.getD_cons_succ]
      exact ih (place_gate st gq).2 k (blocked_preserved st gq q col hb)
        (by simpa using hk) hq

lemma lastlb_run (gqs : List (List Nat)) (st : LayoutState) (q : Nat) (col : Int) (k : Nat)
    (hb : col ≤ st.last q) (hk : k < gqs.length) (hq : q ∈ gateSpan (gqs.getD k [])) :
    col < (placeAll st gqs).getD k 0 := by
  induction gqs generalizing st k with
  | nil => simp at hk
  | cons gq gqs ih =>
    cases k with
    | zero =>
      simp only [List.getD_cons_zero] at hq
      simp only [placeAll, List.getD_cons_zero, place_gate_fst]
      have := last_lt_column gq st.last st.occ q hq
      omega
    | succ k =>
      simp only [List.getD_cons_succ] at hq
      simp only [placeAll, List.getD_cons_succ]
      exact ih (place_gate st gq).2 k (le_trans hb (place_gate_last_mono st gq q))
        (by simpa using hk) hq

lemma placeAll_span_distinct (gqs : List (List Nat)) (st : LayoutState) (i j q : Nat)
    (hij : i < j) (hj : j < gqs.length)
    (hqi : q ∈ gateSpan (gqs.getD i [])) (hqj : q ∈ gateSpan (gqs.getD j [])) :
    (placeAll st gqs).getD i 0 ≠ (placeAll st gqs).getD j 0 := by
  induction gqs generalizing st i j with
  | nil => simp at hj
  | cons gq gqs ih =>
    cases i with
    | zero =>
      cases j with
      | zero => omega
      | succ j =>
        simp only [List.getD_cons_zero] at hqi
        simp only [List.getD_cons_succ] at hqj
        simp only [placeAll, List.getD_cons_zero, List.getD_cons_succ]
        have hb := blocked_new st gq q hqi
        intro heq
        exact blocked_run gqs (place_gate st gq).2 q ((place_gate st gq).1) j hb
          (by simpa using hj) hqj heq.symm
    | succ i =>
      cases j with
      | zero => omega
      | succ j =>
        simp only [List.getD_cons_succ] at hqi hqj
        simp only [placeAll, List.getD_cons_succ]
        exact ih (place_gate st gq).2 i j (by omega) (by simpa using hj) hqi hqj

lemma placeAll_row_increasing (gqs : List (List Nat)) (st : LayoutState) (i j q : Nat)
    (hij : i < j) (hj : j < gqs.length)
    (hqi : q ∈ gqs.getD i []) (hqj : q ∈ gqs.getD j []) :
    (placeAll st gqs).getD i 0 < (placeAll st gqs).getD j 0 := by
  induction gqs generalizing st i j with
  | nil => simp at hj
  | cons gq gqs ih =>
    cases i with
    | zero =>
      cases j with
      | zero => omega
      | succ j =>
        simp only [List.getD_cons_zero] at hqi
        simp only [List.getD_cons_succ] at hqj
        simp only [placeAll, List.getD_cons_zero, List.getD_cons_succ]
        have hlast : (place_gate st gq).1 ≤ (place_gate st gq).2.last q := by
          rw [place_gate_fst, place_gate_last, if_pos hqi]
        exact lastlb_run gqs (place_gate st gq).2 q ((place_gate st gq).1) j hlast
          (by simpa using hj) (mem_gateSpan_of_mem _ q hqj)
    | succ i =>
      cases j with
      | zero => omega
      | succ j =>
        simp only [List.getD_cons_succ] at hqi hqj
        simp only [placeAll, List.getD_cons_succ]
        exact ih (place_gate st gq).2 i j (by omega) (by simpa using hj) hqi hqj

/-! Decomposition of the gate loop into `operatedAll` plus `placeAll`. -/

lemma columnsLoop_spec (gs : List Gate) (n : Nat) (st : LayoutState) :
    columnsLoop n gs st =
      match operatedAll n gs with
      | .error e => .error e
      | .ok gqs => .ok (placeAll st gqs) := by
  induction gs generalizing st with
  | nil => rfl
  | cons g gs ih =>
    simp only [columnsLoop, operatedAll]
    cases hgo : get_operated_qubits g n with
    | error e => rfl
    | ok gq =>
      dsimp only
      rw [ih (place_gate st gq).2]
      cases hop : operatedAll n gs with
      | error e => rfl
      | ok gqs => rfl

lemma operatedAll_length (gs : List Gate) (n : Nat) (gqs : List (List Nat))
    (h : operatedAll n gs = .ok gqs) : gqs.length = gs.length := by
  induction gs generalizing gqs with
  | nil =>
    rw [operatedAll] at h
    cases h
    rfl
  | cons g gs ih =>
    rw [operatedAll] at h
    cases hgo : get_operated_qubits g n with
    | error e => rw [hgo] at h; cases h
    | ok gq =>
      rw [hgo] at h
      cases hop : operatedAll n gs with
      | error e => rw [hop] at h; cases h
      | ok gqs' =>
        rw [hop] at h
        cases h
        simp only [List.length_cons, ih gqs' hop]

lemma operatedAll_mem_spec (gs : List Gate) (n : Nat) (gqs : List (List Nat))
    (h : operatedAll n gs = .ok gqs) :
    ∀ gq ∈ gqs, ∃ g ∈ gs, get_operated_qubits g n = .ok gq := by
  induction gs generalizing gqs with
  | nil =>
    rw [operatedAll] at h
    cases h
    intro gq hgq
    cases hgq
  | cons g gs ih =>
    rw [operatedAll] at h
    cases hgo : get_operated_qubits g n with
    | error e => rw [hgo] at h; cases h
    | ok gq0 =>
      rw [hgo] at h
      cases hop : operatedAll n gs with
      | error e => rw [hop] at h; cases h
      | ok gqs' =>
        rw [hop] at h
        cases h
        intro gq hgq
        rcases List.mem_cons.mp hgq with rfl | hgq'
        · exact ⟨g, List.mem_cons_self g gs, hgo⟩
        · rcases ih gqs' hop gq hgq' with ⟨g', hg', hval⟩
          exact ⟨g', List.mem_cons_of_mem g hg', hval⟩

/-! Inversion facts about `maxQubitsAll` and `get_num_qubits`. -/

lemma get_num_qubits_ok_inv (gates : List Gate) (n : Nat)
    (h : get_num_qubits gates = .ok n) :
    ∃ v vs, maxQubitsAll gates = .ok (v :: vs) ∧ n = 1 + vs.foldl Nat.max v := by
  rw [get_num_qubits] at h
  cases hmq : maxQubitsAll gates with
  | error e => rw [hmq] at h; cases h
  | ok vs =>
    rw [hmq] at h
    cases vs with
    | nil => cases h
    | cons v vs' =>
      cases h
      exact ⟨v, vs', rfl, rfl⟩

lemma get_num_qubits_pos (gates : List Gate) (n : Nat)
    (h : get_num_qubits gates = .ok n) : 0 < n := by
  rcases get_num_qubits_ok_inv gates n h with ⟨v, vs, _, rfl⟩
  omega

lemma gateMaxQubit_ok_inv (g : Gate) (v : Nat) (h : gateMaxQubit g = .ok v) :
    ∃ ts cs, g.targets = some ts ∧ g.controls = some cs ∧
      ts ++ cs ≠ [] ∧ v ∈ ts ++ cs ∧ ∀ r ∈ ts ++ cs, r ≤ v := by
  rcases g with ⟨topt, copt⟩
  cases topt with
  | none => cases h
  | some ts =>
    cases copt with
    | none => cases h
    | some cs =>
      have h2 : (match ts ++ cs with
          | [] => (Except.error PyErr.valueError : Except PyErr Nat)
          | x :: xs => .ok (xs.foldl Nat.max x)) = .ok v := h
      cases hl : ts ++ cs with
      | nil => rw [hl] at h2; cases h2
      | cons x xs =>
        rw [hl] at h2
        cases h2
        refine ⟨ts, cs, rfl, rfl, by rw [hl]; exact List.cons_ne_nil x xs, ?_, ?_⟩
        · rw [hl]
          rcases foldl_natMax_choice xs x with h1 | h1
          · rw [h1]; exact List.mem_cons_self x xs
          · exact List.mem_cons_of_mem x h1
        · rw [hl]
          exact fun r hr => le_foldl_natMax_of_mem_cons x xs r hr

lemma maxQubitsAll_ok_explicit (gates : List Gate) (vs : List Nat)
    (h : maxQubitsAll gates = .ok vs) :
    ∀ g ∈ gates, has_explicit_targets g = true → ∃ v ∈ vs, gateMaxQubit g = .ok v := by
  induction gates generalizing vs with
  | nil =>
    intro g hg
    cases hg
  | cons g0 gs ih =>
    rw [maxQubitsAll] at h
    by_cases hx : has_explicit_targets g0
    · rw [if_pos hx] at h
      cases hmg : gateMaxQubit g0 with
      | error e => rw [hmg] at h; cases h
      | ok v0 =>
        rw [hmg] at h
        cases hmq : maxQubitsAll gs with
        | error e => rw [hmq] at h; cases h
        | ok vs' =>
          rw [hmq] at h
          cases h
          intro g hg hgx
          rcases List.mem_cons.mp hg with rfl | hg'
          · exact ⟨v0, List.mem_cons_self v0 vs', hmg⟩
          · rcases ih vs' hmq g hg' hgx with ⟨v, hv, hval⟩
            exact ⟨v, List.mem_cons_of_mem v0 hv, hval⟩
    · rw [if_neg hx] at h
      intro g hg hgx
      rcases List.mem_cons.mp hg with rfl | hg'
      · exact absurd hgx hx
      · exact ih vs h g hg' hgx

lemma maxQubitsAll_mem_spec (gates : List Gate) (vs : List Nat)
    (h : maxQubitsAll gates = .ok vs) :
    ∀ v ∈ vs, ∃ g ∈ gates, gateMaxQubit g = .ok v := by
  induction gates generalizing vs with
  | nil =>
    rw [maxQubitsAll] at h
    cases h
    intro v hv
    cases hv
  | cons g0 gs ih =>
    rw [maxQubitsAll] at h
    by_cases hx : has_explicit_targets g0
    · rw [if_pos hx] at h
      cases hmg : gateMaxQubit g0 with
      | error e => rw [hmg] at h; cases h
      | ok v0 =>
        rw [hmg] at h
        cases hmq : maxQubitsAll gs with
        | error e => rw [hmq] at h; cases h
        | ok vs' =>
          rw [hmq] at h
          cases h
          intro v hv
          rcases List.mem_cons.mp hv with rfl | hv'
          · exact ⟨g0, List.mem_cons_self g0 gs, hmg⟩
          · rcases ih vs' hmq v hv' with ⟨g, hg, hval⟩
            exact ⟨g, List.mem_cons_of_mem g0 hg, hval⟩
    · rw [if_neg hx] at h
      intro v hv
      rcases ih vs h v hv with ⟨g, hg, hval⟩
      exact ⟨g, List.mem_cons_of_mem g0 hg, hval⟩

lemma maxQubitsAll_ok_nil_iff (gates : List Gate) (vs : List Nat)
    (h : maxQubitsAll gates = .ok vs) :
    vs = [] ↔ ∀ g ∈ gates, has_explicit_targets g = false := by
  induction gates generalizing vs with
  | nil =>
    rw [maxQubitsAll] at h
    cases h
    simp
  | cons g0 gs ih =>
    rw [maxQubitsAll] at h
    by_cases hx : has_explicit_targets g0
    · rw [if_pos hx] at h
      cases hmg : gateMaxQubit g0 with
      | error e => rw [hmg] at h; cases h
      | ok v0 =>
        rw [hmg] at h
        cases hmq : maxQubitsAll gs with
        | error e => rw [hmq] at h; cases h
        | ok vs' =>
          rw [hmq] at h
          cases h
          constructor
          · intro heq; cases heq
          · intro hall
            exact absurd (hall g0 (List.mem_cons_self g0 gs)) (by rw [hx]; simp)
    · rw [if_neg hx] at h
      rw [ih vs h]
      constructor
      · intro hall g hg
        rcases List.mem_cons.mp hg with rfl | hg'
        · exact Bool.not_eq_true _ |>.mp hx
        · exact hall g hg'
      · intro hall g hg
        exact hall g (List.mem_cons_of_mem g0 hg)

/-! Totality of the pass on well-formed inputs, and non-negativity. -/

lemma maxQubitsAll_total (gates : List Gate)
    (hwf : ∀ g ∈ gates, ∀ ts, g.targets = some ts → ∃ cs, g.controls = some cs ∧ ts ++ cs ≠ []) :
    ∃ vs, maxQubitsAll gates = .ok vs := by
  induction gates with
  | nil => exact ⟨[], rfl⟩
  | cons g gs ih =>
    have hwf' : ∀ g' ∈ gs, ∀ ts, g'.targets = some ts →
        ∃ cs, g'.controls = some cs ∧ ts ++ cs ≠ [] :=
      fun g' hg' => hwf g' (List.mem_cons_of_mem g hg')
    rcases ih hwf' with ⟨vs, hvs⟩
    rw [maxQubitsAll]
    by_cases hx : has_explicit_targets g
    · rw [if_pos hx]
      rcases Option.isSome_iff_exists.mp hx with ⟨ts, hts⟩
      rcases hwf g (List.mem_cons_self g gs) ts hts with ⟨cs, hcs, hne⟩
      rcases g with ⟨topt, copt⟩
      cases hts
      cases hcs
      have h2 : ∃ v, gateMaxQubit ⟨some ts, some cs⟩ = .ok v := by
        have h3 : gateMaxQubit ⟨some ts, some cs⟩ = (match ts ++ cs with
            | [] => (Except.error PyErr.valueError : Except PyErr Nat)
            | x :: xs => .ok (xs.foldl Nat.max x)) := rfl
        cases hl : ts ++ cs with
        | nil => exact absurd hl hne
        | cons x xs =>
          rw [hl] at h3
          exact ⟨xs.foldl Nat.max x, h3⟩
      rcases h2 with ⟨v, hv⟩
      rw [hv, hvs]
      exact ⟨v :: vs, rfl⟩
    · rw [if_neg hx]
      exact ⟨vs, hvs⟩

lemma operatedAll_total (gates : List Gate) (n : Nat)
    (hwf : ∀ g ∈ gates, ∀ ts, g.targets = some ts → ∃ cs, g.controls = some cs) :
    ∃ gqs, operatedAll n gates = .ok gqs := by
  induction gates with
  | nil => exact ⟨[], rfl⟩
  | cons g gs ih =>
    have hwf' : ∀ g' ∈ gs, ∀ ts, g'.targets = some ts → ∃ cs, g'.controls = some cs :=
      fun g' hg' => hwf g' (List.mem_cons_of_mem g hg')
    rcases ih hwf' with ⟨gqs, hgqs⟩
    rw [operatedAll]
    rcases g with ⟨topt, copt⟩
    cases topt with
    | none =>
      rw [show get_operated_qubits ⟨none, copt⟩ n = .ok (List.range n) from rfl, hgqs]
      exact ⟨List.range n :: gqs, rfl⟩
    | some ts =>
      rcases hwf ⟨some ts, copt⟩ (List.mem_cons_self _ gs) ts rfl with ⟨cs, hcs⟩
      cases hcs
      rw [show get_operated_qubits ⟨some ts, some cs⟩ n = .ok (cs ++ ts) from rfl, hgqs]
      exact ⟨(cs ++ ts) :: gqs, rfl⟩

lemma column_nonneg (gq : List Nat) (last : Nat → Int) (occ : Nat → List Int)
    (h : ∀ q, -1 ≤ last q) : 0 ≤ get_gate_column gq last occ := by
  have h1 : -1 ≤ pyIntMax ((gateSpan gq).map last) :=
    le_trans (h (listMinN gq)) (le_pyIntMax _ _ (List.mem_map_of_mem last (listMinN_mem_gateSpan gq)))
  have h2 := start_le_get_gate_column gq last occ
  omega

lemma lastLB_preserved (st : LayoutState) (gq : List Nat) (h : LastLB st) :
    LastLB (place_gate st gq).2 := by
  intro q
  rw [place_gate_last]
  by_cases hg : q ∈ gq
  · rw [if_pos hg]
    have := column_nonneg gq st.last st.occ h
    omega
  · rw [if_neg hg]
    exact h q

lemma placeAll_nonneg (gqs : List (List Nat)) (st : LayoutState) (h : LastLB st) :
    ∀ c ∈ placeAll st gqs, 0 ≤ c := by
  induction gqs generalizing st with
  | nil =>
    intro c hc
    cases hc
  | cons gq gqs ih =>
    intro c hc
    rcases List.mem_cons.mp hc with rfl | hc'
    · rw [place_gate_fst]
      exact column_nonneg gq st.last st.occ h
    · exact ih (place_gate st gq).2 (lastLB_preserved st gq h) c hc'

lemma initState_lastLB : LastLB initState :=
  fun _ => le_refl (-1)

/-! Non-emptiness of every operated-qubit list in a successful run. -/

lemma operated_ne_nil (gates : List Gate) (n : Nat) (gqs : List (List Nat))
    (hn : get_num_qubits gates = .ok n) (hops : operatedAll n gates = .ok gqs) :
    ∀ gq ∈ gqs, gq ≠ [] := by
  intro gq hgq
  rcases operatedAll_mem_spec gates n gqs hops gq hgq with ⟨g, hg, hval⟩
  rcases get_num_qubits_ok_inv gates n hn with ⟨v0, vs0, hmq, _⟩
  rcases g with ⟨topt, copt⟩
  cases topt with
  | none =>
    have hval2 : Except.ok (List.range n) = Except.ok gq := hval
    cases hval2
    have := get_num_qubits_pos gates n hn
    rw [Ne, List.range_eq_nil]
    omega
  | some ts =>
    cases copt with
    | none => cases hval
    | some cs =>
      have hval2 : Except.ok (cs ++ ts) = Except.ok gq := hval
      cases hval2
      have hx : has_explicit_targets ⟨some ts, some cs⟩ = true := rfl
      rcases maxQubitsAll_ok_explicit gates (v0 :: vs0) hmq _ hg hx with ⟨v, _, hvg⟩
      rcases gateMaxQubit_ok_inv _ v hvg with ⟨ts', cs', hts', hcs', hne, _, _⟩
      cases hts'
      cases hcs'
      rw [Ne, List.append_eq_nil]
      rw [Ne, List.append_eq_nil] at hne
      tauto

/-! Helper facts used to settle the extent-error claim. -/

lemma maxQubitsAll_all_implicit (gates : List Gate)
    (h : ∀ g ∈ gates, has_explicit_targets g = false) : maxQubitsAll gates = .ok [] := by
  induction gates with
  | nil => rfl
  | cons g gs ih =>
    rw [maxQubitsAll, if_neg ?_]
    · exact ih fun g' hg' => h g' (List.mem_cons_of_mem g hg')
    · rw [h g (List.mem_cons_self g gs)]
      simp

lemma maxQubitsAll_no_valueError (gates : List Gate)
    (hwf : ∀ g ∈ gates, ∀ ts cs, g.targets = some ts → g.controls = some cs → ts ++ cs ≠ []) :
    (∃ vs, maxQubitsAll gates = .ok vs) ∨
      maxQubitsAll gates = .error .attributeError := by
  induction gates with
  | nil => exact Or.inl ⟨[], rfl⟩
  | cons g gs ih =>
    have hwf' : ∀ g' ∈ gs, ∀ ts cs, g'.targets = some ts → g'.controls = some cs →
        ts ++ cs ≠ [] :=
      fun g' hg' => hwf g' (List.mem_cons_of_mem g hg')
    rw [maxQubitsAll]
    by_cases hx : has_explicit_targets g
    · rw [if_pos hx]
      rcases Option.isSome_iff_exists.mp hx with ⟨ts, hts⟩
      rcases g with ⟨topt, copt⟩
      cases hts
      cases copt with
      | none =>
        rw [show gateMaxQubit ⟨some ts, none⟩ = .error .attributeError from rfl]
        exact Or.inr rfl
      | some cs =>
        have hne := hwf ⟨some ts, some cs⟩ (List.mem_cons_self _ gs) ts cs rfl rfl
        have h3 : gateMaxQubit ⟨some ts, some cs⟩ = (match ts ++ cs with
            | [] => (Except.error PyErr.valueError : Except PyErr Nat)
            | x :: xs => .ok (xs.foldl Nat.max x)) := rfl
        cases hl : ts ++ cs with
        | nil => exact absurd hl hne
        | cons x xs =>
          rw [hl] at h3
          rw [h3]
          rcases ih hwf' with ⟨vs, hvs⟩ | herr
          · rw [hvs]
            exact Or.inl ⟨_, rfl⟩
          · rw [herr]
            exact Or.inr rfl
    · rw [if_neg hx]
      exact ih hwf'

/-! Equivalence of the pruned and unpruned occlusion states. -/

lemma get_gate_column_prune_eq (gq : List Nat) (last : Nat → Int) (occP occU : Nat → List Int)
    (hocc : ∀ q, occP q = (occU q).filter fun x => decide (last q < x)) :
    get_gate_column gq last occP = get_gate_column gq last occU := by
  have hmem : ∀ x : Int, 1 + pyIntMax ((gateSpan gq).map last) ≤ x →
      (x ∈ ((gateSpan gq).map occP).flatten ↔ x ∈ ((gateSpan gq).map occU).flatten) := by
    intro x hx
    constructor
    · intro hin
      rcases List.mem_flatten.mp hin with ⟨s, hs, hxs⟩
      rcases List.mem_map.mp hs with ⟨q, hq, rfl⟩
      rw [hocc q] at hxs
      exact List.mem_flatten.mpr ⟨occU q, List.mem_map_of_mem occU hq,
        (List.mem_filter.mp hxs).1⟩
    · intro hin
      rcases List.mem_flatten.mp hin with ⟨s, hs, hxs⟩
      rcases List.mem_map.mp hs with ⟨q, hq, rfl⟩
      have hlq : last q < x := by
        have := le_pyIntMax _ (last q) (List.mem_map_of_mem last hq)
        omega
      refine List.mem_flatten.mpr ⟨occP q, List.mem_map_of_mem occP hq, ?_⟩
      rw [hocc q]
      exact List.mem_filter.mpr ⟨hxs, decide_eq_true hlq⟩
  have h1 := next_free_isFirstFree (((gateSpan gq).map occP).flatten)
    (1 + pyIntMax ((gateSpan gq).map last))
  have h2 := next_free_isFirstFree (((gateSpan gq).map occU).flatten)
    (1 + pyIntMax ((gateSpan gq).map last))
  refine isFirstFree_unique (((gateSpan gq).map occU).flatten) _ _ _ ?_ h2
  refine ⟨h1.1, ?_, ?_⟩
  · intro hin
    exact h1.2.1 ((hmem _ h1.1).mpr hin)
  · intro x hx1 hx2
    exact (hmem x hx1).mp (h1.2.2 x hx1 hx2)

lemma place_gate_noprune_fst (st : LayoutState) (gq : List Nat) :
    (place_gate_noprune st gq).1 = get_gate_column gq st.last st.occ := rfl

lemma place_gate_noprune_last (st : LayoutState) (gq : List Nat) (q : Nat) :
    (place_gate_noprune st gq).2.last q =
      if q ∈ gq then get_gate_column gq st.last st.occ else st.last q := rfl

lemma place_gate_noprune_occ (st : LayoutState) (gq : List Nat) (q : Nat) :
    (place_gate_noprune st gq).2.occ q =
      if q ∈ gateSpan gq then st.occ q ++ [get_gate_column gq st.last st.occ]
      else st.occ q := rfl

lemma noprune_rel_step (gq : List Nat) (stP stU : LayoutState)
    (hlast : stP.last = stU.last)
    (hocc : ∀ q, stP.occ q = (stU.occ q).filter fun x => decide (stU.last q < x)) :
    (place_gate stP gq).1 = (place_gate_noprune stU gq).1 ∧
      (place_gate stP gq).2.last = (place_gate_noprune stU gq).2.last ∧
      ∀ q, (place_gate stP gq).2.occ q =
        ((place_gate_noprune stU gq).2.occ q).filter
          fun x => decide ((place_gate_noprune stU gq).2.last q < x) := by
  have hc : get_gate_column gq stP.last stP.occ = get_gate_column gq stU.last stU.occ := by
    rw [hlast]
    exact get_gate_column_prune_eq gq stU.last stP.occ stU.occ hocc
  have hfst : (place_gate stP gq).1 = (place_gate_noprune stU gq).1 := hc
  have hlast' : (place_gate stP gq).2.last = (place_gate_noprune stU gq).2.last := by
    funext q
    rw [place_gate_last, place_gate_noprune_last, hc, hlast]
  refine ⟨hfst, hlast', ?_⟩
  intro q
  rw [place_gate_occ stP gq q, place_gate_noprune_occ stU gq q, hlast']
  by_cases hsp : q ∈ gateSpan gq
  · rw [if_pos hsp, if_pos hsp, hc, hocc q]
    rw [List.filter_append, List.filter_append, List.filter_filter]
    have hle : stU.last q ≤ (place_gate_noprune stU gq).2.last q := by
      rw [place_gate_noprune_last]
      by_cases hg : q ∈ gq
      · rw [if_pos hg]
        exact le_of_lt (last_lt_column gq stU.last stU.occ q hsp)
      · rw [if_neg hg]
    refine congrArg (fun l => l ++ _) ?_
    refine List.filter_congr ?_
    intro x _
    by_cases hx : (place_gate_noprune stU gq).2.last q < x
    · have hx2 : stU.last q < x := lt_of_le_of_lt hle hx
      rw [decide_eq_true hx, decide_eq_true hx2]
      rfl
    · rw [decide_eq_false hx]
      rfl
  · have hg : q ∉ gq := fun hmem => hsp (mem_gateSpan_of_mem gq q hmem)
    rw [if_neg hsp, if_neg hsp, hocc q, place_gate_noprune_last, if_neg hg]

lemma columnsLoopNoprune_eq (gs : List Gate) (n : Nat) (stP stU : LayoutState)
    (hlast : stP.last = stU.last)
    (hocc : ∀ q, stP.occ q = (stU.occ q).filter fun x => decide (stU.last q < x)) :
    columnsLoopNoprune n gs stU = columnsLoop n gs stP := by
  induction gs generalizing stP stU with
  | nil => rfl
  | cons g gs ih =>
    simp only [columnsLoop, columnsLoopNoprune]
    cases hgo : get_operated_qubits g n with
    | error e => rfl
    | ok gq =>
      dsimp only
      rcases noprune_rel_step gq stP stU hlast hocc with ⟨hfst, hlast', hocc'⟩
      rw [ih (place_gate stP gq).2 (place_gate_noprune stU gq).2 hlast' hocc', ← hfst]

/-- Additional helper: filtering out gates without explicit targets does
not change the per-gate maxima seen by `get_num_qubits`. -/
lemma maxQubitsAll_filter (gates : List Gate) :
    maxQubitsAll (gates.filter fun g => has_explicit_targets g) = maxQubitsAll gates := by
  induction gates with
  | nil => rfl
  | cons g gs ih =>
    rw [List.filter_cons]
    by_cases hx : has_explicit_targets g
    · rw [if_pos hx, maxQubitsAll, maxQubitsAll, if_pos hx, if_pos hx, ih]
    · rw [if_neg hx, ih]
      conv_rhs => rw [maxQubitsAll]
      rw [if_neg hx]

/-- Claim C1: the column assigned to a gate is exactly the smallest
integer that is strictly greater than every span row's last terminal
occupancy and not a member of any span row's occlusion set, evaluated
against the occupancy state at the moment the gate is placed: the chosen
column is feasible, and no strictly smaller column is. -/
theorem C1_leftmost_column (st : LayoutState) (gq : List Nat) (_h : gq ≠ []) :
    feasibleCol st gq ((place_gate st gq).1) ∧
      ∀ c' : Int, c' < (place_gate st gq).1 → ¬ feasibleCol st gq c' := by
  constructor
  · intro q hq
    have hmem : q ∈ gateSpan gq := (mem_gateSpan_iff gq q).mpr hq
    rw [place_gate_fst]
    exact ⟨last_lt_column gq st.last st.occ q hmem, column_not_mem_occ gq st.last st.occ q hmem⟩
  · intro c' hlt hfeas
    rw [place_gate_fst] at hlt
    exact column_minimal gq st.last st.occ c' hlt fun q hq => hfeas q hq

theorem C1_leftmost_column_witness :
    ([5] : List Nat) ≠ [] ∧
      (place_gate initState [5]).1 = 0 ∧
      (feasibleCol initState [5] ((place_gate initState [5]).1) ∧
        ∀ c' : Int, c' < (place_gate initState [5]).1 → ¬ feasibleCol initState [5] c') :=
  ⟨by decide, rfl, C1_leftmost_column initState [5] (by decide)⟩

/-- Claim C2 counterexample: a circuit whose single gate has explicit but
empty targets and controls fails with the very same ValueError (Python's
`max() arg is an empty sequence`, the no-extent-determinable condition),
although a gate with explicit targets is present — refuting the claimed
"only if" direction of the equivalence. -/
theorem C2_extent_error_counterexample :
    get_num_qubits [Gate.mk (some []) (some [])] = .error .valueError ∧
      has_explicit_targets (Gate.mk (some []) (some [])) = true :=
  ⟨rfl, rfl⟩

/-- Claim C2 (amended): provided every explicitly-targeted gate has a
nonempty combined target-and-control list, the layout fails with the
no-extent-determinable ValueError if and only if no gate in the input
sequence has explicit targets; the failure is an explicit error value,
never a silently assumed default. -/
theorem C2_extent_error_amended (gates : List Gate)
    (hwf : ∀ g ∈ gates, ∀ ts cs, g.targets = some ts → g.controls = some cs → ts ++ cs ≠ []) :
    get_num_qubits gates = .error .valueError ↔
      ∀ g ∈ gates, has_explicit_targets g = false := by
  constructor
  · intro herr
    rcases maxQubitsAll_no_valueError gates hwf with ⟨vs, hvs⟩ | hattr
    · rw [get_num_qubits, hvs] at herr
      cases vs with
      | nil => exact (maxQubitsAll_ok_nil_iff gates [] hvs).mp rfl
      | cons v vs' => simp at herr
    · rw [get_num_qubits, hattr] at herr
      simp at herr
  · intro hall
    rw [get_num_qubits, maxQubitsAll_all_implicit gates hall]

theorem C2_extent_error_witness :
    (∀ g ∈ [Gate.mk none none], ∀ ts cs, g.targets = some ts → g.controls = some cs →
      ts ++ cs ≠ []) ∧
      (get_num_qubits [Gate.mk none none] = .error .valueError ↔
        ∀ g ∈ [Gate.mk none none], has_explicit_targets g = false) := by
  have hwf : ∀ g ∈ [Gate.mk none none], ∀ ts cs, g.targets = some ts → g.controls = some cs →
      ts ++ cs ≠ [] := by
    intro g hg ts cs hts _
    rw [List.mem_singleton] at hg
    subst hg
    cases hts
  exact ⟨hwf, C2_extent_error_amended [Gate.mk none none] hwf⟩

/-- Claim C3: in any successful run of the column assigner, two distinct
gates whose inclusive min-to-max spans share at least one row receive
different column indices. -/
theorem C3_overlapping_spans_distinct_columns (gates : List Gate) (n : Nat)
    (gqs : List (List Nat)) (cols : List Int) (i j q : Nat)
    (hn : get_num_qubits gates = .ok n)
    (hops : operatedAll n gates = .ok gqs)
    (hcols : get_circuit_columns gates = .ok cols)
    (hij : i < j) (hj : j < gates.length)
    (hqi : inSpan (gqs.getD i []) q) (hqj : inSpan (gqs.getD j []) q) :
    cols.getD i 0 ≠ cols.getD j 0 := by
  rw [get_circuit_columns, hn] at hcols
  dsimp only at hcols
  rw [columnsLoop_spec, hops] at hcols
  dsimp only at hcols
  cases hcols
  have hlen : gqs.length = gates.length := operatedAll_length gates n gqs hops
  exact placeAll_span_distinct gqs initState i j q hij (by omega)
    ((mem_gateSpan_iff _ q).mpr hqi) ((mem_gateSpan_iff _ q).mpr hqj)

theorem C3_overlapping_spans_distinct_columns_witness :
    get_num_qubits [Gate.mk (some [0, 2]) (some []), Gate.mk (some [1]) (some [])] = .ok 3 ∧
      operatedAll 3 [Gate.mk (some [0, 2]) (some []), Gate.mk (some [1]) (some [])] =
        .ok [[0, 2], [1]] ∧
      get_circuit_columns [Gate.mk (some [0, 2]) (some []), Gate.mk (some [1]) (some [])] =
        .ok [0, 1] ∧
      (0 : Nat) < 1 ∧
      1 < [Gate.mk (some [0, 2]) (some []), Gate.mk (some [1]) (some [])].length ∧
      inSpan ([[0, 2], [1]].getD 0 []) 1 ∧ inSpan ([[0, 2], [1]].getD 1 []) 1 ∧
      ([0, 1] : List Int).getD 0 0 ≠ ([0, 1] : List Int).getD 1 0 := by
  refine ⟨rfl, rfl, rfl, by omega, by simp, ⟨by decide, by decide⟩, ⟨by decide, by decide⟩, ?_⟩
  exact C3_overlapping_spans_distinct_columns
    [Gate.mk (some [0, 2]) (some []), Gate.mk (some [1]) (some [])] 3 [[0, 2], [1]] [0, 1]
    0 1 1 rfl rfl rfl (by omega) (by simp) ⟨by decide, by decide⟩ ⟨by decide, by decide⟩

/-- Claim C4: in any successful run of the column assigner, if a row
belongs to the operated-row sets of two gates then the later gate's
column is strictly greater than the earlier gate's column. -/
theorem C4_shared_row_strictly_increasing (gates : List Gate) (n : Nat)
    (gqs : List (List Nat)) (cols : List Int) (i j q : Nat)
    (hn : get_num_qubits gates = .ok n)
    (hops : operatedAll n gates = .ok gqs)
    (hcols : get_circuit_columns gates = .ok cols)
    (hij : i < j) (hj : j < gates.length)
    (hqi : q ∈ gqs.getD i []) (hqj : q ∈ gqs.getD j []) :
    cols.getD i 0 < cols.getD j 0 := by
  rw [get_circuit_columns, hn] at hcols
  dsimp only at hcols
  rw [columnsLoop_spec, hops] at hcols
  dsimp only at hcols
  cases hcols
  have hlen : gqs.length = gates.length := operatedAll_length gates n gqs hops
  exact placeAll_row_increasing gqs initState i j q hij (by omega) hqi hqj

theorem C4_shared_row_strictly_increasing_witness :
    get_num_qubits [Gate.mk (some [0]) (some []), Gate.mk (some [0]) (some [])] = .ok 1 ∧
      operatedAll 1 [Gate.mk (some [0]) (some []), Gate.mk (some [0]) (some [])] =
        .ok [[0], [0]] ∧
      get_circuit_columns [Gate.mk (some [0]) (some []), Gate.mk (some [0]) (some [])] =
        .ok [0, 1] ∧
      (0 : Nat) < 1 ∧
      1 < [Gate.mk (some [0]) (some []), Gate.mk (some [0]) (some [])].length ∧
      0 ∈ [[0], [0]].getD 0 ([] : List Nat) ∧ 0 ∈ [[0], [0]].getD 1 ([] : List Nat) ∧
      ([0, 1] : List Int).getD 0 0 < ([0, 1] : List Int).getD 1 0 := by
  refine ⟨rfl, rfl, rfl, by omega, by simp, by decide, by decide, ?_⟩
  exact C4_shared_row_strictly_increasing
    [Gate.mk (some [0]) (some []), Gate.mk (some [0]) (some [])] 1 [[0], [0]] [0, 1]
    0 1 0 rfl rfl rfl (by omega) (by simp) (by decide) (by decide)

/-- Claim C5: the pruning step is behaviour-preserving — the variant of
the column assigner that omits the per-gate pruning of occlusion entries
(letting each row's occlusion list grow unboundedly, with the same
membership test) returns exactly the same result as the implemented
assigner on every input circuit, errors included. -/
theorem C5_pruning_behavior_preserving (gates : List Gate) :
    get_circuit_columns_noprune gates = get_circuit_columns gates := by
  rw [get_circuit_columns, get_circuit_columns_noprune]
  cases hn : get_num_qubits gates with
  | error e => rfl
  | ok n =>
    dsimp only
    exact columnsLoopNoprune_eq gates n initState initState rfl fun q => rfl

/-- Claim C7: the documented state invariant of the column-assignment
pass — every element of a row's occlusion set is strictly greater than
that row's last terminal occupancy — holds in the initial state and is
preserved by every gate placement, hence holds after each gate. -/
theorem C7_occlusion_invariant :
    StateInv initState ∧
      ∀ (st : LayoutState) (gq : List Nat), StateInv st → StateInv (place_gate st gq).2 := by
  constructor
  · intro q x hx
    cases hx
  · intro st gq hinv q x hx
    rw [place_gate_occ] at hx
    by_cases hsp : q ∈ gateSpan gq
    · rw [if_pos hsp] at hx
      exact of_decide_eq_true (List.mem_filter.mp hx).2
    · rw [if_neg hsp] at hx
      have hg : q ∉ gq := fun hmem => hsp (mem_gateSpan_of_mem gq q hmem)
      rw [place_gate_last, if_neg hg]
      exact hinv q x hx

theorem C7_occlusion_invariant_witness :
    StateInv initState ∧ StateInv (place_gate initState [0]).2 :=
  ⟨fun _ x hx => absurd hx (List.not_mem_nil x),
    C7_occlusion_invariant.2 initState [0] fun _ x hx => absurd hx (List.not_mem_nil x)⟩

/-- Claim C6: whenever the diagram height is computed (`get_num_qubits`
returns a value `n`), `n` is positive, `n - 1` is attained as a target or
control row of some explicitly-targeted gate, every explicit target or
control row is below `n`, and restricting the circuit to its
explicitly-targeted gates leaves the height unchanged (implicit-global
gates contribute nothing). -/
theorem C6_num_qubits_characterization (gates : List Gate) (n : Nat)
    (h : get_num_qubits gates = .ok n) :
    0 < n ∧
      (∃ g ∈ gates, ∃ ts cs, g.targets = some ts ∧ g.controls = some cs ∧ n - 1 ∈ ts ++ cs) ∧
      (∀ g ∈ gates, ∀ ts cs, g.targets = some ts → g.controls = some cs →
        ∀ r ∈ ts ++ cs, r < n) ∧
      get_num_qubits (gates.filter fun g => has_explicit_targets g) = .ok n := by
  rcases get_num_qubits_ok_inv gates n h with ⟨v, vs, hmq, hn⟩
  refine ⟨by omega, ?_, ?_, ?_⟩
  · have hMmem : vs.foldl Nat.max v ∈ v :: vs := by
      rcases foldl_natMax_choice vs v with h1 | h1
      · rw [h1]
        exact List.mem_cons_self v vs
      · exact List.mem_cons_of_mem v h1
    rcases maxQubitsAll_mem_spec gates (v :: vs) hmq _ hMmem with ⟨g, hg, hval⟩
    rcases gateMaxQubit_ok_inv g _ hval with ⟨ts, cs, hts, hcs, _, hmem, _⟩
    refine ⟨g, hg, ts, cs, hts, hcs, ?_⟩
    have : n - 1 = vs.foldl Nat.max v := by omega
    rw [this]
    exact hmem
  · intro g hg ts cs hts hcs r hr
    have hx : has_explicit_targets g = true := by
      rw [has_explicit_targets, hts]
      rfl
    rcases maxQubitsAll_ok_explicit gates (v :: vs) hmq g hg hx with ⟨vg, hvgmem, hvg⟩
    rcases gateMaxQubit_ok_inv g vg hvg with ⟨ts', cs', hts', hcs', _, _, hbound⟩
    rw [hts] at hts'
    rw [hcs] at hcs'
    cases hts'
    cases hcs'
    have h1 : r ≤ vg := hbound r hr
    have h2 : vg ≤ vs.foldl Nat.max v := le_foldl_natMax_of_mem_cons v vs vg hvgmem
    omega
  · rw [get_num_qubits, maxQubitsAll_filter, hmq, hn]

theorem C6_num_qubits_characterization_witness :
    get_num_qubits [Gate.mk (some [2, 0]) (some [])] = .ok 3 ∧
      (0 < 3 ∧
        (∃ g ∈ [Gate.mk (some [2, 0]) (some [])], ∃ ts cs, g.targets = some ts ∧
          g.controls = some cs ∧ 3 - 1 ∈ ts ++ cs) ∧
        (∀ g ∈ [Gate.mk (some [2, 0]) (some [])], ∀ ts cs, g.targets = some ts →
          g.controls = some cs → ∀ r ∈ ts ++ cs, r < 3) ∧
        get_num_qubits ([Gate.mk (some [2, 0]) (some [])].filter
          fun g => has_explicit_targets g) = .ok 3) :=
  ⟨rfl, C6_num_qubits_characterization [Gate.mk (some [2, 0]) (some [])] 3 rfl⟩

/-- Claim C8 counterexample: a circuit containing an explicitly-targeted
gate that does not expose the controls capability makes the column
assigner raise AttributeError instead of returning one column per gate —
refuting the claim for arbitrary circuits with at least one
explicitly-targeted gate. -/
theorem C8_output_counterexample :
    has_explicit_targets (Gate.mk (some [0]) none) = true ∧
      get_circuit_columns [Gate.mk (some [0]) none] = .error .attributeError :=
  ⟨rfl, rfl⟩

/-- Claim C8 (amended): for every circuit with at least one
explicitly-targeted gate in which every explicitly-targeted gate exposes
a controls sequence and has a nonempty combined target-and-control list,
the column assigner returns exactly one integer column per input gate,
every assigned column is non-negative, and `num_columns = 1 + max` is at
least 1. -/
theorem C8_output_wellformed (gates : List Gate)
    (hex : ∃ g ∈ gates, has_explicit_targets g = true)
    (hwf : ∀ g ∈ gates, ∀ ts, g.targets = some ts →
      ∃ cs, g.controls = some cs ∧ ts ++ cs ≠ []) :
    ∃ cols, get_circuit_columns gates = .ok cols ∧ cols.length = gates.length ∧
      (∀ c ∈ cols, 0 ≤ c) ∧ 1 ≤ 1 + pyIntMax cols := by
  have hwf' : ∀ g ∈ gates, ∀ ts cs, g.targets = some ts → g.controls = some cs →
      ts ++ cs ≠ [] := by
    intro g hg ts cs hts hcs
    rcases hwf g hg ts hts with ⟨cs', hcs', hne⟩
    rw [hcs] at hcs'
    cases hcs'
    exact hne
  rcases maxQubitsAll_total gates (fun g hg ts hts => hwf g hg ts hts) with ⟨vs, hvs⟩
  have hvs_ne : vs ≠ [] := by
    intro hnil
    subst hnil
    rcases hex with ⟨g, hg, hx⟩
    have hfa := (maxQubitsAll_ok_nil_iff gates [] hvs).mp rfl g hg
    rw [hx] at hfa
    cases hfa
  obtain ⟨v, vs', rfl⟩ : ∃ v vs', vs = v :: vs' := by
    cases vs with
    | nil => exact absurd rfl hvs_ne
    | cons v vs' => exact ⟨v, vs', rfl⟩
  have hn : get_num_qubits gates = .ok (1 + vs'.foldl Nat.max v) := by
    rw [get_num_qubits, hvs]
  have hwf2 : ∀ g ∈ gates, ∀ ts, g.targets = some ts → ∃ cs, g.controls = some cs :=
    fun g hg ts hts => ⟨(hwf g hg ts hts).choose, (hwf g hg ts hts).choose_spec.1⟩
  rcases operatedAll_total gates (1 + vs'.foldl Nat.max v) hwf2 with ⟨gqs, hops⟩
  have hcols : get_circuit_columns gates = .ok (placeAll initState gqs) := by
    rw [get_circuit_columns, hn]
    dsimp only
    rw [columnsLoop_spec, hops]
  have hlen : (placeAll initState gqs).length = gates.length := by
    rw [placeAll_length, operatedAll_length gates (1 + vs'.foldl Nat.max v) gqs hops]
  refine ⟨placeAll initState gqs, hcols, hlen, placeAll_nonneg gqs initState initState_lastLB, ?_⟩
  have hne : placeAll initState gqs ≠ [] := by
    intro hnil
    have hzero := congrArg List.length hnil
    rw [hlen] at hzero
    rcases hex with ⟨g, hg, _⟩
    cases gates with
    | nil => cases hg
    | cons a as => simp at hzero
  have h0 := placeAll_nonneg gqs initState initState_lastLB _ (pyIntMax_mem _ hne)
  omega

theorem C8_output_wellformed_witness :
    (∃ g ∈ [Gate.mk (some [0]) (some [])], has_explicit_targets g = true) ∧
      (∀ g ∈ [Gate.mk (some [0]) (some [])], ∀ ts, g.targets = some ts →
        ∃ cs, g.controls = some cs ∧ ts ++ cs ≠ []) ∧
      (∃ cols, get_circuit_columns [Gate.mk (some [0]) (some [])] = .ok cols ∧
        cols.length = [Gate.mk (some [0]) (some [])].length ∧
        (∀ c ∈ cols, 0 ≤ c) ∧ 1 ≤ 1 + pyIntMax cols) := by
  have hex : ∃ g ∈ [Gate.mk (some [0]) (some [])], has_explicit_targets g = true :=
    ⟨Gate.mk (some [0]) (some []), List.mem_singleton_self _, rfl⟩
  have hwf : ∀ g ∈ [Gate.mk (some [0]) (some [])], ∀ ts, g.targets = some ts →
      ∃ cs, g.controls = some cs ∧ ts ++ cs ≠ [] := by
    intro g hg ts hts
    rw [List.mem_singleton] at hg
    subst hg
    cases hts
    exact ⟨[], rfl, by simp⟩
  exact ⟨hex, hwf, C8_output_wellformed [Gate.mk (some [0]) (some [])] hex hwf⟩

/-- Claim C9: the column assigner is a pure function of the input gate
sequence — two gate sequences of equal length whose descriptors agree
position-wise on their target and control contents receive identical
results, with no dependence on any ambient state (the Lean embedding has
none, and the result is determined by the two capability fields alone). -/
theorem C9_determinism (gs1 gs2 : List Gate)
    (hlen : gs1.length = gs2.length)
    (hfields : ∀ (i : Nat) (h1 : i < gs1.length) (h2 : i < gs2.length),
      (gs1.get ⟨i, h1⟩).targets = (gs2.get ⟨i, h2⟩).targets ∧
        (gs1.get ⟨i, h1⟩).controls = (gs2.get ⟨i, h2⟩).controls) :
    get_circuit_columns gs1 = get_circuit_columns gs2 := by
  have heq : gs1 = gs2 := by
    apply List.ext_get hlen
    intro i h1 h2
    rcases hfields i h1 h2 with ⟨ht, hc⟩
    rcases hg1 : gs1.get ⟨i, h1⟩ with ⟨t1, c1⟩
    rcases hg2 : gs2.get ⟨i, h2⟩ with ⟨t2, c2⟩
    rw [hg1, hg2] at ht hc
    rw [show t1 = t2 from ht, show c1 = c2 from hc]
  rw [heq]

theorem C9_determinism_witness :
    ([Gate.mk (some [0]) (some [])].length = [Gate.mk (some [0]) (some [])].length) ∧
      (∀ (i : Nat) (h1 : i < [Gate.mk (some [0]) (some [])].length)
        (h2 : i < [Gate.mk (some [0]) (some [])].length),
        ([Gate.mk (some [0]) (some [])].get ⟨i, h1⟩).targets =
          ([Gate.mk (some [0]) (some [])].get ⟨i, h2⟩).targets ∧
        ([Gate.mk (some [0]) (some [])].get ⟨i, h1⟩).controls =
          ([Gate.mk (some [0]) (some [])].get ⟨i, h2⟩).controls) ∧
      get_circuit_columns [Gate.mk (some [0]) (some [])] =
        get_circuit_columns [Gate.mk (some [0]) (some [])] := by
  have hfields : ∀ (i : Nat) (h1 : i < [Gate.mk (some [0]) (some [])].length)
      (h2 : i < [Gate.mk (some [0]) (some [])].length),
      ([Gate.mk (some [0]) (some [])].get ⟨i, h1⟩).targets =
        ([Gate.mk (some [0]) (some [])].get ⟨i, h2⟩).targets ∧
      ([Gate.mk (some [0]) (some [])].get ⟨i, h1⟩).controls =
        ([Gate.mk (some [0]) (some [])].get ⟨i, h2⟩).controls :=
    fun _ _ _ => ⟨rfl, rfl⟩
  exact ⟨rfl, hfields, C9_determinism _ _ rfl hfields⟩

/-- Claim C10: for a gate exposing the targets capability but not the
controls capability, the core reads the controls sequence
unconditionally: `get_operated_qubits` (which returns controls ++
targets for explicitly-targeted gates) and `get_num_qubits` both raise
AttributeError rather than treating the controls as empty. -/
theorem C10_controls_read_unconditionally (ts : List Nat) (n : Nat) :
    has_explicit_targets (Gate.mk (some ts) none) = true ∧
      has_controls (Gate.mk (some ts) none) = false ∧
      get_operated_qubits (Gate.mk (some ts) none) n = .error .attributeError ∧
      get_num_qubits [Gate.mk (some ts) none] = .error .attributeError :=
  ⟨rfl, rfl, rfl, rfl⟩
